import Mathlib

/-!
# Verification of the nostr authoring/signing core

A shallow embedding of the event-authoring, signing, key-handling and
encryption layer of the repository (FFI surface in
`bindings/nostr-ffi` and `bindings/nostr-sdk-ffi`).  The FFI wrappers in
`src/` delegate to the core `nostr` crate, whose sources are not part of
the provided tree; those parts are modelled from the specification, as
marked by doc comments starting with `Modelled from the spec:`.

Machine text is modelled as `String` (event content, tags) or as lists of
character codes (`List Nat`) where byte-level structure matters; byte
strings are `List Nat` with entries reduced mod 256 where overflow matters.
-/

namespace Nostr

/-! ## Canonical serialization of events

Modelled from the spec: the identifier computation input is a fixed
5-element array `[0, publicKey, createdAt, kind, tags, content]` serialized
with a canonical (fixed field order, unambiguous) encoding.  The JSON
serializer of the `nostr` crate is not under `src/`; it is modelled as a
self-delimiting, injective encoding into a list of naturals. -/

/-- Byte codes of a string (character code points). -/
def strBytes (s : String) : List Nat :=
  s.data.map Char.toNat

/-- Length-prefixed block: a self-delimiting encoding of a byte list. -/
def encB (l : List Nat) : List Nat :=
  l.length :: l

/-- Canonical encoding of one string. -/
def encStr (s : String) : List Nat :=
  encB (strBytes s)

/-- Canonical encoding of one tag (a sequence of strings). -/
def encTag (t : List String) : List Nat :=
  encB ((t.map encStr).flatten)

/-- Canonical encoding of a tag list. -/
def encTags (ts : List (List String)) : List Nat :=
  encB ((ts.map encTag).flatten)

/-- An unsigned event: the five signed fields.
Public keys are group elements of the modelled curve group (see below). -/
structure UnsignedEvent where
  pubkey : Nat
  created_at : Nat
  kind : Nat
  tags : List (List String)
  content : String
deriving DecidableEq

/-- Canonical serialization of the fixed 5-element array
`[0, publicKey, createdAt, kind, tags, content]`. -/
def serializeEvent (u : UnsignedEvent) : List Nat :=
  0 :: u.pubkey :: u.created_at :: u.kind :: (encTags u.tags ++ encStr u.content)

/-- Modelled from the spec: SHA-256 is not under `src/`.  The spec asserts
that the id is a deterministic function of the serialized fields and that
changing any field changes the id, so the digest is modelled as an
injective function of the serialized bytes; the two leading entries mimic
digest bytes (reduced mod 256) that vary with the content, so that
proof-of-work mining over the id is non-degenerate. -/
def hashModel (l : List Nat) : List Nat :=
  (l.sum % 256) :: ((l.sum * 31 + l.length) % 256) :: l

/-- The event id: digest of the canonical serialization. -/
def computeId (u : UnsignedEvent) : List Nat :=
  hashModel (serializeEvent u)

/-! ### Injectivity of the canonical serialization -/

theorem encB_append_inj {a b r s : List Nat}
    (h : encB a ++ r = encB b ++ s) : a = b ∧ r = s := by
  simp only [encB, List.cons_append, List.cons.injEq] at h
  obtain ⟨hlen, happ⟩ := h
  exact List.append_inj happ hlen

theorem encB_ne_nil (l : List Nat) : encB l ≠ [] := by
  simp [encB]

theorem strBytes_inj {s t : String} (h : strBytes s = strBytes t) : s = t := by
  apply String.ext
  have h2 := congrArg (List.map Char.ofNat) h
  simpa [strBytes, List.map_map, Function.comp_def, Char.ofNat_toNat] using h2

theorem encStr_append_inj {a b : String} {r s : List Nat}
    (h : encStr a ++ r = encStr b ++ s) : a = b ∧ r = s := by
  obtain ⟨h1, h2⟩ := encB_append_inj h
  exact ⟨strBytes_inj h1, h2⟩

/-- Joining a prefix-free family of encodings is injective. -/
theorem join_map_inj {α : Type} (f : α → List Nat)
    (hf : ∀ (a b : α) (r s : List Nat), f a ++ r = f b ++ s → a = b ∧ r = s)
    (hne : ∀ a, f a ≠ []) :
    ∀ {l₁ l₂ : List α}, (l₁.map f).flatten = (l₂.map f).flatten → l₁ = l₂ := by
  intro l₁
  induction l₁ with
  | nil =>
    intro l₂ h
    cases l₂ with
    | nil => rfl
    | cons b bs =>
      exfalso
      simp only [List.map_nil, List.flatten_nil, List.map_cons, List.flatten_cons] at h
      rcases List.append_eq_nil.mp h.symm with ⟨hb, _⟩
      exact hne b hb
  | cons a as ih =>
    intro l₂ h
    cases l₂ with
    | nil =>
      exfalso
      simp only [List.map_nil, List.flatten_nil, List.map_cons, List.flatten_cons] at h
      rcases List.append_eq_nil.mp h with ⟨hb, _⟩
      exact hne a hb
    | cons b bs =>
      simp only [List.map_cons, List.flatten_cons] at h
      obtain ⟨hab, hrest⟩ := hf a b _ _ h
      rw [hab, ih hrest]

theorem encTag_append_inj {a b : List String} {r s : List Nat}
    (h : encTag a ++ r = encTag b ++ s) : a = b ∧ r = s := by
  obtain ⟨h1, h2⟩ := encB_append_inj h
  refine ⟨?_, h2⟩
  exact join_map_inj encStr (fun a b r s => encStr_append_inj)
    (fun a => encB_ne_nil _) h1

theorem encTags_append_inj {a b : List (List String)} {r s : List Nat}
    (h : encTags a ++ r = encTags b ++ s) : a = b ∧ r = s := by
  obtain ⟨h1, h2⟩ := encB_append_inj h
  refine ⟨?_, h2⟩
  exact join_map_inj encTag (fun a b r s => encTag_append_inj)
    (fun a => encB_ne_nil _) h1

theorem serializeEvent_inj {u v : UnsignedEvent}
    (h : serializeEvent u = serializeEvent v) : u = v := by
  simp only [serializeEvent, List.cons.injEq] at h
  obtain ⟨-, hpk, hca, hk, hrest⟩ := h
  obtain ⟨htags, hcontent⟩ := encTags_append_inj hrest
  have hc : u.content = v.content := by
    have := encStr_append_inj (r := []) (s := [])
      (by simpa using hcontent)
    exact this.1
  cases u; cases v
  simp_all

theorem hashModel_inj {l₁ l₂ : List Nat} (h : hashModel l₁ = hashModel l₂) :
    l₁ = l₂ := by
  simpa [hashModel] using congrArg (List.drop 2) h

theorem computeId_inj {u v : UnsignedEvent} (h : computeId u = computeId v) :
    u = v :=
  serializeEvent_inj (hashModel_inj h)

/-! ## Keys and Schnorr signatures

Modelled from the spec: the secp256k1 group and Schnorr signatures live in
an external crate.  The curve group is modelled as the naturals under
addition with generator `gGen`, preserving the algebraic relations the
claims use: public-key derivation (`pk = g·sk`), Diffie-Hellman symmetry
(`shared(a, pub b) = shared(b, pub a)`) and the Schnorr verification
equation (`g·s = R + e·pk`). -/

def gGen : Nat := 5

def pubkeyOf (sk : Nat) : Nat := gGen * sk

/-- Local identity: secret key scalar (public key always derivable). -/
structure Keys where
  sk : Nat
deriving DecidableEq

def Keys.publicKey (k : Keys) : Nat := pubkeyOf k.sk

/-- Challenge hash over a message: executable stand-in digest. -/
def hashMsg (l : List Nat) : Nat :=
  l.foldl (fun a b => a * 1000003 + b + 1) 1

/-- Modelled from the spec: Schnorr signing over a pre-hashed message.  The
implementation draws a fresh random nonce per call; randomness is modelled
by taking the nonce as an explicit argument and quantifying over it. -/
def schnorrSign (sk nonce : Nat) (msg : List Nat) : Nat × Nat :=
  (gGen * nonce, nonce + hashMsg msg * sk)

/-- Schnorr verification of `sig = (R, s)` against public key `pk`. -/
def schnorrVerify (pk : Nat) (msg : List Nat) (sig : Nat × Nat) : Bool :=
  gGen * sig.2 == sig.1 + hashMsg msg * pk

theorem schnorrVerify_sign (sk nonce : Nat) (msg : List Nat) :
    schnorrVerify (pubkeyOf sk) msg (schnorrSign sk nonce msg) = true := by
  simp only [schnorrVerify, schnorrSign, pubkeyOf, beq_iff_eq]
  ring

/-! ## Signed events -/

/-- A finished event: the five signed fields plus id and signature. -/
structure Event where
  pubkey : Nat
  created_at : Nat
  kind : Nat
  tags : List (List String)
  content : String
  id : List Nat
  sig : Nat × Nat
deriving DecidableEq

/-- The five signed fields of a finished event. -/
def Event.fields (e : Event) : UnsignedEvent :=
  ⟨e.pubkey, e.created_at, e.kind, e.tags, e.content⟩

/-- Complete an unsigned event with the given keys: compute the id from the
five fields and sign it. -/
def mkEvent (k : Keys) (nonce : Nat) (u : UnsignedEvent) : Event :=
  { pubkey := u.pubkey, created_at := u.created_at, kind := u.kind,
    tags := u.tags, content := u.content,
    id := computeId u, sig := schnorrSign k.sk nonce (computeId u) }

inductive SignerError
  | keyMismatch
deriving DecidableEq

/-- Modelled from the spec: `NostrSigner::sign_event` for local `Keys`
(the wrapper in `src/bindings/nostr-sdk-ffi/src/protocol/key/mod.rs`
delegates to the `nostr` crate, which is not under `src/`).  Per the spec
the operation is atomic: either a fully valid event is returned or an
error, so an unsigned event whose public key is not the signer's is
refused rather than finished with a signature that would not verify
against the event's own public key. -/
def signEventK (k : Keys) (nonce : Nat) (u : UnsignedEvent) :
    Except SignerError Event :=
  if u.pubkey = k.publicKey then .ok (mkEvent k nonce u)
  else .error .keyMismatch

/-! ## Hexadecimal text

Shared helpers for key/id text (`EventId::from_hex`,
`XOnlyPublicKey::from_str`, secret-key parsing).  Text is handled as
character codes; the canonical alphabet is lowercase hex. -/

/-- Lowercase hex digit code of a value `d < 16`. -/
def hexDigitCode (d : Nat) : Nat := if d < 10 then 48 + d else 87 + d

/-- Is `c` the code of a (lowercase) hex digit? -/
def isHexCode (c : Nat) : Bool := (48 ≤ c && c ≤ 57) || (97 ≤ c && c ≤ 102)

/-- Value of a hex digit code. -/
def hexCodeVal (c : Nat) : Nat := if c ≤ 57 then c - 48 else c - 87

/-- Fixed-width big-endian hex encoding: `len` digits of `n`. -/
def toHexCodes : Nat → Nat → List Nat
  | 0, _ => []
  | len + 1, n => toHexCodes len (n / 16) ++ [hexDigitCode (n % 16)]

/-- Value of a big-endian hex digit string. -/
def hexCodesVal (l : List Nat) : Nat :=
  l.foldl (fun a c => a * 16 + hexCodeVal c) 0

def isHexChar (c : Char) : Bool := isHexCode c.toNat

/-- Is `s` a 64-character hex string? -/
def isHex64 (s : String) : Bool := s.length == 64 && s.data.all isHexChar

def hexStrVal (s : String) : Nat := hexCodesVal (strBytes s)

/-- 64-digit lowercase hex rendering of a 32-byte value. -/
def natToHex64 (n : Nat) : String :=
  String.mk ((toHexCodes 64 n).map Char.ofNat)

inductive ParseError
  | invalidEventId (s : String)
  | invalidPublicKey (s : String)
deriving DecidableEq

/-- Modelled from the spec: `EventId::from_hex` — a valid event id is 64
hex characters; malformed text fails with a parsing error. -/
def eventIdFromHex (s : String) : Except ParseError Nat :=
  if isHex64 s then .ok (hexStrVal s) else .error (.invalidEventId s)

/-- Modelled from the spec: `XOnlyPublicKey::from_str` — 64 hex
characters; malformed text fails with a parsing error. -/
def xOnlyPublicKeyFromStr (s : String) : Except ParseError Nat :=
  if isHex64 s then .ok (hexStrVal s) else .error (.invalidPublicKey s)

/-! ## Event builder (`src/bindings/nostr-ffi/src/event/builder.rs`) -/

inductive TagError
  | invalidTag (t : List String)
deriving DecidableEq

/-- Modelled from the spec: the tag-kind grammar checked by
`Tag::try_from` — a reference ("e") tag requires a valid 64-hex event id
in position 1, a pubkey ("p") tag a valid 64-hex key there; an empty tag
has no kind and is invalid; other tag kinds have no positional constraint
stated by the spec. -/
def tagTryFrom (t : List String) : Except TagError (List String) :=
  match t with
  | [] => .error (.invalidTag [])
  | k :: rest =>
    if k = "e" || k = "p" then
      match rest with
      | [] => .error (.invalidTag t)
      | v :: _ => if isHex64 v then .ok t else .error (.invalidTag t)
    else .ok t

/-- Builder state: kind, content and already-validated tags. -/
structure EventBuilder where
  kind : Nat
  content : String
  tags : List (List String)
deriving DecidableEq

/-- The per-tag validation loop of `EventBuilder::new`: validates each tag
in order, short-circuiting on the first invalid one (mirrors the `for`
loop with `?` in `builder.rs`). -/
def validateTags : List (List String) → Except TagError (List (List String))
  | [] => .ok []
  | t :: ts =>
    match tagTryFrom t with
    | .error e => .error e
    | .ok v =>
      match validateTags ts with
      | .error e => .error e
      | .ok vs => .ok (v :: vs)

/-- `EventBuilder::new` (`builder.rs`): validates every tag eagerly, then
stores kind/content/tags. -/
def EventBuilder.new (kind : Nat) (content : String)
    (tags : List (List String)) : Except TagError EventBuilder :=
  match validateTags tags with
  | .error e => .error e
  | .ok ts => .ok ⟨kind, content, ts⟩

/-- The unsigned event a builder produces for the given keys and
timestamp. -/
def EventBuilder.toUnsigned (b : EventBuilder) (k : Keys) (createdAt : Nat) :
    UnsignedEvent :=
  ⟨k.publicKey, createdAt, b.kind, b.tags, b.content⟩

/-- `EventBuilder::to_event`: completes and signs without any further
validation (non-mining path).  Timestamp and signing nonce are the
environment inputs of the call. -/
def EventBuilder.toEvent (b : EventBuilder) (k : Keys)
    (createdAt nonce : Nat) : Event :=
  mkEvent k nonce (b.toUnsigned k createdAt)

/-- Leading zero bits of an id viewed as a byte string (entries mod 256). -/
def leadingZeroBits : List Nat → Nat
  | [] => 0
  | b :: r => if b % 256 = 0 then 8 + leadingZeroBits r else 7 - (b % 256).log2

/-- The nonce tag appended by mining. -/
def nonceTag (counter difficulty : Nat) : List String :=
  ["nonce", toString counter, toString difficulty]

/-- Mining candidate: the builder's event with a nonce tag appended. -/
def powCandidate (b : EventBuilder) (k : Keys)
    (createdAt counter difficulty : Nat) : UnsignedEvent :=
  ⟨k.publicKey, createdAt, b.kind, b.tags ++ [nonceTag counter difficulty],
    b.content⟩

/-- The mining loop: try increasing nonce counters until the id clears the
difficulty.  The unbounded CPU-bound loop is modelled with explicit fuel
(`none` = still running). -/
def powSearch (b : EventBuilder) (k : Keys)
    (createdAt nonce difficulty : Nat) : Nat → Nat → Option Event
  | 0, _ => none
  | fuel + 1, counter =>
    let u := powCandidate b k createdAt counter difficulty
    if difficulty ≤ leadingZeroBits (computeId u) then some (mkEvent k nonce u)
    else powSearch b k createdAt nonce difficulty fuel (counter + 1)

/-- Modelled from the spec: `EventBuilder::to_pow_event` — identical to
`to_event` but first mines: repeatedly appends/updates a nonce tag and
recomputes the id until it has at least `difficulty` leading zero bits.
The condition is checked before the first nonce is tried, so difficulty 0
signs the unmodified event at once. -/
def EventBuilder.toPowEvent (b : EventBuilder) (k : Keys)
    (createdAt nonce difficulty fuel : Nat) : Option Event :=
  if difficulty ≤ leadingZeroBits (computeId (b.toUnsigned k createdAt)) then
    some (b.toEvent k createdAt nonce)
  else powSearch b k createdAt nonce difficulty fuel 0

/-- NIP-09 deletion event kind. -/
def deletionKind : Nat := 5

/-- NIP-18 repost event kind. -/
def repostKind : Nat := 6

/-- The id-parsing loop of `EventBuilder::delete` (`builder.rs`): parses
every textual id, short-circuiting on the first malformed one, before any
builder state is created. -/
def deleteIds : List String → Except ParseError (List Nat)
  | [] => .ok []
  | s :: ss =>
    match eventIdFromHex s with
    | .error e => .error e
    | .ok n =>
      match deleteIds ss with
      | .error e => .error e
      | .ok ns => .ok (n :: ns)

/-- Modelled from the spec: `EventBuilder::delete` — a deletion-kind
builder with an "e" reference tag per target id and content equal to the
optional reason (empty when absent).  The hex parsing happens first, in
`deleteIds`, exactly as in `builder.rs`. -/
def EventBuilder.delete (ids : List String) (reason : Option String) :
    Except ParseError EventBuilder :=
  match deleteIds ids with
  | .error e => .error e
  | .ok ns =>
    .ok ⟨deletionKind, reason.getD "", ns.map (fun n => ["e", natToHex64 n])⟩

/-- Modelled from the spec: `EventBuilder::repost` — both textual
arguments are parsed before any builder state is created. -/
def EventBuilder.repost (eventId publicKey : String) :
    Except ParseError EventBuilder :=
  match eventIdFromHex eventId with
  | .error e => .error e
  | .ok n =>
    match xOnlyPublicKeyFromStr publicKey with
    | .error e => .error e
    | .ok p => .ok ⟨repostKind, "", [["e", natToHex64 n], ["p", natToHex64 p]]⟩

instance {ε α : Type} [DecidableEq ε] [DecidableEq α] :
    DecidableEq (Except ε α) := fun a b =>
  match a, b with
  | .error x, .error y => decidable_of_iff (x = y) (by simp)
  | .error _, .ok _ => isFalse (by simp)
  | .ok _, .error _ => isFalse (by simp)
  | .ok x, .ok y => decidable_of_iff (x = y) (by simp)

/-! ## Helper lemmas for the builder -/

theorem tagTryFrom_ok_eq {t v : List String} (h : tagTryFrom t = .ok v) :
    v = t := by
  unfold tagTryFrom at h
  repeat' split at h
  all_goals simp_all

theorem tagTryFrom_error_eq {t : List String} {e : TagError}
    (h : tagTryFrom t = .error e) : e = .invalidTag t := by
  unfold tagTryFrom at h
  repeat' split at h
  all_goals simp_all

theorem validateTags_ok {tags ts : List (List String)}
    (h : validateTags tags = .ok ts) :
    ts = tags ∧ ∀ t ∈ tags, tagTryFrom t = .ok t := by
  induction tags generalizing ts with
  | nil =>
    simp only [validateTags, Except.ok.injEq] at h
    simp [← h]
  | cons t rest ih =>
    simp only [validateTags] at h
    split at h
    · exact absurd h (by simp)
    · next v hv =>
      split at h
      · exact absurd h (by simp)
      · next vs hvs =>
        obtain ⟨hvs1, hvs2⟩ := ih hvs
        have hvt := tagTryFrom_ok_eq hv
        simp only [Except.ok.injEq] at h
        subst h hvt hvs1
        refine ⟨rfl, ?_⟩
        intro x hx
        rcases List.mem_cons.mp hx with rfl | hx
        · exact hv
        · exact hvs2 x hx

theorem validateTags_error_iff (tags : List (List String)) :
    (∃ e, validateTags tags = .error e) ↔
    ∃ t ∈ tags, ∃ e', tagTryFrom t = .error e' := by
  induction tags with
  | nil => simp [validateTags]
  | cons t rest ih =>
    simp only [validateTags]
    constructor
    · rintro ⟨e, he⟩
      split at he
      · next e' h' => exact ⟨t, List.mem_cons_self t rest, e', h'⟩
      · next v hv =>
        split at he
        · next e' h' =>
          obtain ⟨x, hx, he'⟩ := ih.mp ⟨e', h'⟩
          exact ⟨x, List.mem_cons_of_mem _ hx, he'⟩
        · exact absurd he (by simp)
    · rintro ⟨x, hx, e', he'⟩
      rcases List.mem_cons.mp hx with rfl | hx
      · rw [he']; exact ⟨e', rfl⟩
      · cases htf : tagTryFrom t with
        | error e => exact ⟨e, rfl⟩
        | ok v =>
          obtain ⟨e, he⟩ := ih.mpr ⟨x, hx, e', he'⟩
          rw [he]
          exact ⟨e, rfl⟩

theorem validateTags_error_mem {tags : List (List String)} {t : List String}
    (h : validateTags tags = .error (.invalidTag t)) :
    t ∈ tags ∧ tagTryFrom t = .error (.invalidTag t) := by
  induction tags with
  | nil => simp [validateTags] at h
  | cons x rest ih =>
    simp only [validateTags] at h
    split at h
    · next e' h' =>
      simp only [Except.error.injEq] at h
      subst h
      have hxt : t = x := TagError.invalidTag.inj (tagTryFrom_error_eq h')
      subst hxt
      exact ⟨List.mem_cons_self t rest, h'⟩
    · next v hv =>
      split at h
      · next e' h' =>
        simp only [Except.error.injEq] at h
        subst h
        obtain ⟨hmem, htf⟩ := ih h'
        exact ⟨List.mem_cons_of_mem _ hmem, htf⟩
      · exact absurd h (by simp)

theorem deleteIds_ok_iff (ids : List String) :
    (∃ ns, deleteIds ids = .ok ns) ↔ ∀ s ∈ ids, isHex64 s = true := by
  induction ids with
  | nil => simp [deleteIds]
  | cons s rest ih =>
    simp only [deleteIds]
    constructor
    · rintro ⟨ns, hns⟩
      split at hns
      · exact absurd hns (by simp)
      · next n hn =>
        split at hns
        · exact absurd hns (by simp)
        · next ms hms =>
          intro x hx
          rcases List.mem_cons.mp hx with rfl | hx
          · by_contra hbad
            simp [eventIdFromHex, hbad] at hn
          · exact ih.mp ⟨ms, hms⟩ x hx
    · intro hall
      have hs : isHex64 s = true := hall s (List.mem_cons_self s rest)
      obtain ⟨ms, hms⟩ := ih.mpr (fun x hx => hall x (List.mem_cons_of_mem _ hx))
      rw [show eventIdFromHex s = .ok (hexStrVal s) by simp [eventIdFromHex, hs],
        hms]
      exact ⟨_, rfl⟩

/-! ## Claims C2, C3, C4, C5, C8 -/

/-- C2: the identifier of an unsigned event is a deterministic pure
function of the five fields (publicKey, createdAt, kind, tags, content):
events agreeing on all five fields get the same id, the stored id of a
signed event equals the id recomputed from its own fields, and changing
any single field changes the id. -/
theorem claim_C2_event_id_function_of_fields :
    (∀ u v : UnsignedEvent, u.pubkey = v.pubkey → u.created_at = v.created_at →
      u.kind = v.kind → u.tags = v.tags → u.content = v.content →
      computeId u = computeId v) ∧
    (∀ (k : Keys) (nonce : Nat) (u : UnsignedEvent),
      (mkEvent k nonce u).id = computeId (mkEvent k nonce u).fields) ∧
    (∀ (u : UnsignedEvent) (x : Nat), x ≠ u.pubkey →
      computeId { u with pubkey := x } ≠ computeId u) ∧
    (∀ (u : UnsignedEvent) (x : Nat), x ≠ u.created_at →
      computeId { u with created_at := x } ≠ computeId u) ∧
    (∀ (u : UnsignedEvent) (x : Nat), x ≠ u.kind →
      computeId { u with kind := x } ≠ computeId u) ∧
    (∀ (u : UnsignedEvent) (x : List (List String)), x ≠ u.tags →
      computeId { u with tags := x } ≠ computeId u) ∧
    (∀ (u : UnsignedEvent) (x : String), x ≠ u.content →
      computeId { u with content := x } ≠ computeId u) := by
  refine ⟨?_, ?_, ?_, ?_, ?_, ?_, ?_⟩
  · intro u v h1 h2 h3 h4 h5
    have huv : u = v := by cases u; cases v; simp_all
    rw [huv]
  · intro k nonce u
    rfl
  · intro u x hx heq
    exact hx (congrArg UnsignedEvent.pubkey (computeId_inj heq))
  · intro u x hx heq
    exact hx (congrArg UnsignedEvent.created_at (computeId_inj heq))
  · intro u x hx heq
    exact hx (congrArg UnsignedEvent.kind (computeId_inj heq))
  · intro u x hx heq
    exact hx (congrArg UnsignedEvent.tags (computeId_inj heq))
  · intro u x hx heq
    exact hx (congrArg UnsignedEvent.content (computeId_inj heq))

theorem claim_C2_witness :
    computeId ⟨1, 2, 3, [], "a"⟩ ≠ computeId ⟨1, 2, 3, [], "b"⟩ ∧
    (mkEvent ⟨7⟩ 0 ⟨35, 2, 3, [], "x"⟩).id
      = computeId (mkEvent ⟨7⟩ 0 ⟨35, 2, 3, [], "x"⟩).fields :=
  ⟨claim_C2_event_id_function_of_fields.2.2.2.2.2.2
      ⟨1, 2, 3, [], "b"⟩ "a" (by decide),
    claim_C2_event_id_function_of_fields.2.1 ⟨7⟩ 0 ⟨35, 2, 3, [], "x"⟩⟩

/-- C3: `sign_event` on a `Keys` signer either returns a complete event
whose five fields are the unsigned event's, whose id equals the recomputed
id of those fields, and whose signature verifies against (id, publicKey) —
or it returns an error; it never returns a partially signed value. -/
theorem claim_C3_sign_event_atomic
    (k : Keys) (nonce : Nat) (u : UnsignedEvent) (e : Event)
    (h : signEventK k nonce u = .ok e) :
    e.fields = u ∧ e.id = computeId e.fields ∧
    schnorrVerify e.pubkey e.id e.sig = true := by
  unfold signEventK at h
  split at h
  · next hpk =>
    simp only [Except.ok.injEq] at h
    subst h
    refine ⟨rfl, rfl, ?_⟩
    show schnorrVerify u.pubkey (computeId u)
      (schnorrSign k.sk nonce (computeId u)) = true
    rw [hpk]
    exact schnorrVerify_sign k.sk nonce (computeId u)
  · exact absurd h (by simp)

theorem claim_C3_witness :
    (mkEvent ⟨3⟩ 11 ⟨15, 1, 1, [], "hi"⟩).fields
        = (⟨15, 1, 1, [], "hi"⟩ : UnsignedEvent) ∧
    (mkEvent ⟨3⟩ 11 ⟨15, 1, 1, [], "hi"⟩).id
        = computeId (mkEvent ⟨3⟩ 11 ⟨15, 1, 1, [], "hi"⟩).fields ∧
    schnorrVerify (mkEvent ⟨3⟩ 11 ⟨15, 1, 1, [], "hi"⟩).pubkey
        (mkEvent ⟨3⟩ 11 ⟨15, 1, 1, [], "hi"⟩).id
        (mkEvent ⟨3⟩ 11 ⟨15, 1, 1, [], "hi"⟩).sig = true :=
  claim_C3_sign_event_atomic ⟨3⟩ 11 ⟨15, 1, 1, [], "hi"⟩
    (mkEvent ⟨3⟩ 11 ⟨15, 1, 1, [], "hi"⟩) rfl

theorem powSearch_some_le (b : EventBuilder) (k : Keys)
    (createdAt nonce difficulty : Nat) :
    ∀ (fuel counter : Nat) (e : Event),
      powSearch b k createdAt nonce difficulty fuel counter = some e →
      difficulty ≤ leadingZeroBits e.id := by
  intro fuel
  induction fuel with
  | zero =>
    intro c e h
    simp [powSearch] at h
  | succ f ih =>
    intro c e h
    simp only [powSearch] at h
    split at h
    · next hd =>
      simp only [Option.some.injEq] at h
      subst h
      exact hd
    · exact ih _ _ h

/-- C4: whenever `to_pow_event` returns an event, that event's id has at
least `difficulty` leading zero bits (in particular difficulty 8 gives at
least 8 leading zero bits); with difficulty 0 it returns immediately with
the same event as `to_event`, without mining. -/
theorem claim_C4_pow_difficulty :
    (∀ (b : EventBuilder) (k : Keys) (createdAt nonce difficulty fuel : Nat)
      (e : Event),
      b.toPowEvent k createdAt nonce difficulty fuel = some e →
      difficulty ≤ leadingZeroBits e.id) ∧
    (∀ (b : EventBuilder) (k : Keys) (createdAt nonce fuel : Nat),
      b.toPowEvent k createdAt nonce 0 fuel
        = some (b.toEvent k createdAt nonce)) := by
  constructor
  · intro b k createdAt nonce difficulty fuel e h
    unfold EventBuilder.toPowEvent at h
    split at h
    · next hd =>
      simp only [Option.some.injEq] at h
      subst h
      exact hd
    · exact powSearch_some_le b k createdAt nonce difficulty fuel 0 e h
  · intro b k createdAt nonce fuel
    simp [EventBuilder.toPowEvent]

theorem claim_C4_witness :
    (⟨1, "x", []⟩ : EventBuilder).toPowEvent ⟨3⟩ 7 0 0 5
        = some ((⟨1, "x", []⟩ : EventBuilder).toEvent ⟨3⟩ 7 0) ∧
    0 ≤ leadingZeroBits ((⟨1, "x", []⟩ : EventBuilder).toEvent ⟨3⟩ 7 0).id :=
  ⟨claim_C4_pow_difficulty.2 ⟨1, "x", []⟩ ⟨3⟩ 7 0 5,
    claim_C4_pow_difficulty.1 ⟨1, "x", []⟩ ⟨3⟩ 7 0 0 5 _
      (claim_C4_pow_difficulty.2 ⟨1, "x", []⟩ ⟨3⟩ 7 0 5)⟩

/-- C5: construction-time validation is eager.  `EventBuilder::new` errors
if and only if some tag is structurally invalid, and the error names an
offending tag from the input; every builder it returns carries exactly the
given (all valid) tags.  Constructors taking textual ids or keys
(`delete`, `repost`) succeed if and only if every textual argument is
well-formed hex, failing before any builder state exists.  Signing
(`to_event`) performs no further validation: it is exactly id computation
plus signing. -/
theorem claim_C5_eager_validation :
    (∀ (kind : Nat) (content : String) (tags : List (List String)),
      (∃ e, EventBuilder.new kind content tags = .error e) ↔
      ∃ t ∈ tags, ∃ e', tagTryFrom t = .error e') ∧
    (∀ (kind : Nat) (content : String) (tags : List (List String))
      (t : List String),
      EventBuilder.new kind content tags = .error (.invalidTag t) →
      t ∈ tags ∧ tagTryFrom t = .error (.invalidTag t)) ∧
    (∀ (kind : Nat) (content : String) (tags : List (List String))
      (b : EventBuilder),
      EventBuilder.new kind content tags = .ok b →
      b.kind = kind ∧ b.content = content ∧ b.tags = tags ∧
        ∀ t ∈ b.tags, tagTryFrom t = .ok t) ∧
    (∀ (ids : List String) (reason : Option String),
      (∃ b, EventBuilder.delete ids reason = .ok b) ↔
      ∀ s ∈ ids, isHex64 s = true) ∧
    (∀ eid pk : String,
      (∃ b, EventBuilder.repost eid pk = .ok b) ↔
      (isHex64 eid = true ∧ isHex64 pk = true)) ∧
    (∀ (b : EventBuilder) (k : Keys) (createdAt nonce : Nat),
      b.toEvent k createdAt nonce = mkEvent k nonce (b.toUnsigned k createdAt)) := by
  refine ⟨?_, ?_, ?_, ?_, ?_, ?_⟩
  · intro kind content tags
    unfold EventBuilder.new
    rw [← validateTags_error_iff]
    constructor
    · rintro ⟨e, he⟩
      split at he
      · next e' h' => exact ⟨e', h'⟩
      · exact absurd he (by simp)
    · rintro ⟨e, he⟩
      rw [he]
      exact ⟨e, rfl⟩
  · intro kind content tags t h
    unfold EventBuilder.new at h
    split at h
    · next e' h' =>
      simp only [Except.error.injEq] at h
      subst h
      exact validateTags_error_mem h'
    · exact absurd h (by simp)
  · intro kind content tags b h
    unfold EventBuilder.new at h
    split at h
    · exact absurd h (by simp)
    · next ts hts =>
      obtain ⟨h1, h2⟩ := validateTags_ok hts
      simp only [Except.ok.injEq] at h
      subst h h1
      exact ⟨rfl, rfl, rfl, h2⟩
  · intro ids reason
    unfold EventBuilder.delete
    rw [← deleteIds_ok_iff]
    constructor
    · rintro ⟨b, hb⟩
      split at hb
      · exact absurd hb (by simp)
      · next ns hns => exact ⟨ns, hns⟩
    · rintro ⟨ns, hns⟩
      rw [hns]
      exact ⟨_, rfl⟩
  · intro eid pk
    unfold EventBuilder.repost
    constructor
    · rintro ⟨b, hb⟩
      split at hb
      · exact absurd hb (by simp)
      · next n hn =>
        split at hb
        · exact absurd hb (by simp)
        · next p hp =>
          constructor
          · by_contra hbad
            simp [eventIdFromHex, hbad] at hn
          · by_contra hbad
            simp [xOnlyPublicKeyFromStr, hbad] at hp
    · rintro ⟨h1, h2⟩
      rw [show eventIdFromHex eid = .ok (hexStrVal eid) by
          simp [eventIdFromHex, h1],
        show xOnlyPublicKeyFromStr pk = .ok (hexStrVal pk) by
          simp [xOnlyPublicKeyFromStr, h2]]
      exact ⟨_, rfl⟩
  · intro b k createdAt nonce
    rfl

theorem claim_C5_witness :
    ["e", "bad"] ∈ [["e", "bad"]] ∧
    tagTryFrom ["e", "bad"] = .error (.invalidTag ["e", "bad"]) :=
  claim_C5_eager_validation.2.1 1 "" [["e", "bad"]] ["e", "bad"] rfl

/-- The 64-character event id used by the C8 scenario. -/
def sampleAId : String :=
  "aaaaaaaaaaaaaaaaaaaaaaaaaaaaaaaaaaaaaaaaaaaaaaaaaaaaaaaaaaaaaaaa"

set_option maxRecDepth 100000 in
/-- C8: building a deletion event for ids `["aaaa…"]` with reason "spam"
and signing it yields an event of the deletion kind whose tags contain the
"e" reference to `"aaaa…"` and whose content is "spam"; with reason `none`
the content is empty. -/
theorem claim_C8_delete_scenario :
    EventBuilder.delete [sampleAId] (some "spam")
        = .ok ⟨deletionKind, "spam", [["e", sampleAId]]⟩ ∧
    ((⟨deletionKind, "spam", [["e", sampleAId]]⟩ : EventBuilder).toEvent
        ⟨3⟩ 7 0).kind = deletionKind ∧
    ["e", sampleAId] ∈ ((⟨deletionKind, "spam", [["e", sampleAId]]⟩ :
        EventBuilder).toEvent ⟨3⟩ 7 0).tags ∧
    ((⟨deletionKind, "spam", [["e", sampleAId]]⟩ : EventBuilder).toEvent
        ⟨3⟩ 7 0).content = "spam" ∧
    EventBuilder.delete [sampleAId] none
        = .ok ⟨deletionKind, "", [["e", sampleAId]]⟩ := by
  refine ⟨?_, rfl, ?_, rfl, ?_⟩
  · decide
  · simp [EventBuilder.toEvent, mkEvent, EventBuilder.toUnsigned]
  · decide

/-! ## NIP-57 zap request data (`src/bindings/nostr-ffi/src/nips/nip57.rs`) -/

inductive ZapType
  | Public
  | Private
  | Anonymous
deriving DecidableEq

/-- Zap request payload data.  Modelled from the spec: the inner
`nip57::ZapRequestData` of the `nostr` crate (the FFI wrapper in
`nip57.rs` clones and delegates to it). -/
structure ZapRequestData where
  public_key : Nat
  relays : List String
  zap_type : ZapType
  amount : Option Nat
  lnurl : Option String
  event_id : Option Nat
deriving DecidableEq

/-- `ZapRequestData::new`: required fields set, optional fields empty. -/
def ZapRequestData.new (public_key : Nat) (relays : List String)
    (zap_type : ZapType) : ZapRequestData :=
  ⟨public_key, relays, zap_type, none, none, none⟩

/-- The `amount` setter (named `setAmount` here because the field
projection takes the source name): returns an updated copy. -/
def ZapRequestData.setAmount (z : ZapRequestData) (a : Nat) : ZapRequestData :=
  { z with amount := some a }

/-- The `lnurl` setter: returns an updated copy. -/
def ZapRequestData.setLnurl (z : ZapRequestData) (l : String) : ZapRequestData :=
  { z with lnurl := some l }

/-- The `event_id` setter: returns an updated copy. -/
def ZapRequestData.setEventId (z : ZapRequestData) (e : Nat) : ZapRequestData :=
  { z with event_id := some e }

/-- C9: each ZapRequestData setter (amount, lnurl, event_id) is a pure
transformation returning an updated value in which only the targeted field
is changed; the recipient public key, relays, zap type and the two
untouched optional fields are preserved exactly. -/
theorem claim_C9_zap_setters_frame :
    (∀ (z : ZapRequestData) (a : Nat),
      (z.setAmount a).amount = some a ∧
      (z.setAmount a).public_key = z.public_key ∧
      (z.setAmount a).relays = z.relays ∧
      (z.setAmount a).zap_type = z.zap_type ∧
      (z.setAmount a).lnurl = z.lnurl ∧
      (z.setAmount a).event_id = z.event_id) ∧
    (∀ (z : ZapRequestData) (l : String),
      (z.setLnurl l).lnurl = some l ∧
      (z.setLnurl l).public_key = z.public_key ∧
      (z.setLnurl l).relays = z.relays ∧
      (z.setLnurl l).zap_type = z.zap_type ∧
      (z.setLnurl l).amount = z.amount ∧
      (z.setLnurl l).event_id = z.event_id) ∧
    (∀ (z : ZapRequestData) (e : Nat),
      (z.setEventId e).event_id = some e ∧
      (z.setEventId e).public_key = z.public_key ∧
      (z.setEventId e).relays = z.relays ∧
      (z.setEventId e).zap_type = z.zap_type ∧
      (z.setEventId e).amount = z.amount ∧
      (z.setEventId e).lnurl = z.lnurl) :=
  ⟨fun _ _ => ⟨rfl, rfl, rfl, rfl, rfl, rfl⟩,
    fun _ _ => ⟨rfl, rfl, rfl, rfl, rfl, rfl⟩,
    fun _ _ => ⟨rfl, rfl, rfl, rfl, rfl, rfl⟩⟩

/-! ## Schnorr digest signing (`Keys::sign_schnorr` in `key/mod.rs`) -/

inductive Secp256k1Error
  | invalidDigestLength
deriving DecidableEq

/-- Modelled from the spec: `secp256k1::Message::from_digest_slice` (an
external collaborator crate) accepts exactly 32-byte digests and errors on
any other length. -/
def messageFromDigestSlice (msg : List Nat) :
    Except Secp256k1Error (List Nat) :=
  if msg.length = 32 then .ok msg else .error .invalidDigestLength

/-- `Keys::sign_schnorr` (`key/mod.rs`): wraps the digest as a message with
`Message::from_digest_slice`, propagating its error, then signs.  The
random nonce drawn per call is an explicit argument. -/
def Keys.sign_schnorr (k : Keys) (nonce : Nat) (msg : List Nat) :
    Except Secp256k1Error (Nat × Nat) :=
  match messageFromDigestSlice msg with
  | .error e => .error e
  | .ok m => .ok (schnorrSign k.sk nonce m)

/-- C10: `sign_schnorr` returns an error for every input byte slice whose
length is not exactly 32 bytes, without producing any signature, and
returns the Schnorr signature for every 32-byte digest. -/
theorem claim_C10_sign_schnorr_digest_length (k : Keys) (nonce : Nat)
    (msg : List Nat) :
    (msg.length ≠ 32 →
      k.sign_schnorr nonce msg = .error .invalidDigestLength) ∧
    (msg.length = 32 →
      k.sign_schnorr nonce msg = .ok (schnorrSign k.sk nonce msg)) := by
  constructor <;> intro h <;>
    simp [Keys.sign_schnorr, messageFromDigestSlice, h]

theorem claim_C10_witness :
    ((⟨3⟩ : Keys).sign_schnorr 9 (List.replicate 31 0)
        = .error .invalidDigestLength) ∧
    ((⟨3⟩ : Keys).sign_schnorr 9 (List.replicate 32 0)
        = .ok (schnorrSign 3 9 (List.replicate 32 0))) :=
  ⟨(claim_C10_sign_schnorr_digest_length ⟨3⟩ 9 (List.replicate 31 0)).1
      (by decide),
    (claim_C10_sign_schnorr_digest_length ⟨3⟩ 9 (List.replicate 32 0)).2
      (by decide)⟩

/-! ## NIP-06 mnemonic derivation (`Keys::from_mnemonic` in `key/mod.rs`) -/

/-- Modelled from the spec: the BIP-39 wordlist is an opaque external
dictionary; a small stand-in word list. -/
def wordlistModel : List String :=
  ["abandon", "ability", "able", "about", "zoo"]

/-- Split a character list into space-separated words. -/
def splitSpaceAux : List Char → List Char → List String
  | [], acc => [String.mk acc.reverse]
  | c :: rest, acc =>
    if c = ' ' then String.mk acc.reverse :: splitSpaceAux rest []
    else splitSpaceAux rest (c :: acc)

/-- Words of a mnemonic sentence. -/
def mnemonicWords (m : String) : List String := splitSpaceAux m.data []

/-- Index of a word in the wordlist (list length when absent). -/
def wordIndexAux : List String → String → Nat
  | [], _ => 0
  | x :: rest, w => if x = w then 0 else wordIndexAux rest w + 1

def wordIndex (w : String) : Nat := wordIndexAux wordlistModel w

/-- Modelled from the spec: the mnemonic checksum constraint (stand-in:
word-index sum divisible by 16). -/
def mnemonicChecksumOk (ws : List String) : Bool :=
  (ws.map wordIndex).sum % 16 == 0

/-- Modelled from the spec: a valid mnemonic has 12 words, all from the
wordlist, and a passing checksum. -/
def mnemonicValid (m : String) : Bool :=
  let ws := mnemonicWords m
  ws.length == 12 && ws.all (fun w => wordlistModel.contains w) &&
    mnemonicChecksumOk ws

inductive DerivationError
  | invalidMnemonic
deriving DecidableEq

/-- Modelled from the spec: the hierarchical derivation function — a pure
function of mnemonic, passphrase, account, type and index (defaults
applied for absent options, as in `from_mnemonic_advanced`). -/
def deriveSecretKey (m : String) (passphrase : Option String)
    (account typ index : Option Nat) : Nat :=
  hashMsg (strBytes m ++ [0] ++ strBytes (passphrase.getD "") ++
    [account.getD 0, typ.getD 0, index.getD 0])

/-- `Keys::from_mnemonic` (`key/mod.rs`): derive keys from BIP-39
mnemonics; invalid wordlist entries or checksum failure fail closed. -/
def Keys.from_mnemonic (m : String) (passphrase : Option String)
    (account typ index : Option Nat) : Except DerivationError Keys :=
  if mnemonicValid m then
    .ok ⟨deriveSecretKey m passphrase account typ index⟩
  else .error .invalidMnemonic

/-- C7: `from_mnemonic` is deterministic — for fixed mnemonic, passphrase,
account, type and index any two invocations return equal results, and two
successful derivations carry bit-identical secret keys; an invalid
mnemonic (wordlist or checksum failure) returns an error, never a key. -/
theorem claim_C7_mnemonic_deterministic :
    (∀ (m : String) (p : Option String) (a t i : Option Nat)
      (r₁ r₂ : Except DerivationError Keys),
      Keys.from_mnemonic m p a t i = r₁ → Keys.from_mnemonic m p a t i = r₂ →
      r₁ = r₂) ∧
    (∀ (m : String) (p : Option String) (a t i : Option Nat) (k₁ k₂ : Keys),
      Keys.from_mnemonic m p a t i = .ok k₁ →
      Keys.from_mnemonic m p a t i = .ok k₂ → k₁.sk = k₂.sk) ∧
    (∀ (m : String) (p : Option String) (a t i : Option Nat),
      mnemonicValid m = false →
      Keys.from_mnemonic m p a t i = .error .invalidMnemonic) := by
  refine ⟨?_, ?_, ?_⟩
  · intro m p a t i r₁ r₂ h1 h2
    rw [← h1, ← h2]
  · intro m p a t i k₁ k₂ h1 h2
    rw [h1] at h2
    injection h2 with h3
    rw [h3]
  · intro m p a t i h
    simp [Keys.from_mnemonic, h]

/-- A structurally valid sample mnemonic for the C7 witness. -/
def sampleMnemonic : String :=
  "abandon abandon abandon abandon abandon abandon abandon abandon abandon abandon abandon abandon"

theorem claim_C7_witness :
    Keys.from_mnemonic sampleMnemonic none none none none
      = Keys.from_mnemonic sampleMnemonic none none none none ∧
    (⟨deriveSecretKey sampleMnemonic none none none none⟩ : Keys).sk
      = (⟨deriveSecretKey sampleMnemonic none none none none⟩ : Keys).sk ∧
    Keys.from_mnemonic "hello world" none none none none
      = .error .invalidMnemonic :=
  ⟨claim_C7_mnemonic_deterministic.1 sampleMnemonic none none none none
      _ _ rfl rfl,
    claim_C7_mnemonic_deterministic.2.1 sampleMnemonic none none none none
      ⟨deriveSecretKey sampleMnemonic none none none none⟩
      ⟨deriveSecretKey sampleMnemonic none none none none⟩ rfl rfl,
    claim_C7_mnemonic_deterministic.2.2 "hello world" none none none none
      (by decide)⟩

/-! ## Hex lemmas -/

theorem hexDigitCode_isHex {d : Nat} (h : d < 16) :
    isHexCode (hexDigitCode d) = true := by
  by_cases h10 : d < 10 <;>
    simp [hexDigitCode, isHexCode, h10, Bool.or_eq_true, Bool.and_eq_true,
      decide_eq_true_eq] <;>
    omega

theorem hexCodeVal_digit {d : Nat} (h : d < 16) :
    hexCodeVal (hexDigitCode d) = d := by
  by_cases h10 : d < 10 <;>
    simp only [hexDigitCode, hexCodeVal, h10, if_true, if_false,
      ite_true, ite_false] <;>
    split <;> omega

theorem hexDigitCode_hexCodeVal {c : Nat} (h : isHexCode c = true) :
    hexDigitCode (hexCodeVal c) = c := by
  simp only [isHexCode, Bool.or_eq_true, Bool.and_eq_true,
    decide_eq_true_eq] at h
  unfold hexCodeVal hexDigitCode
  split <;> split <;> omega

theorem hexCodeVal_lt {c : Nat} (h : isHexCode c = true) :
    hexCodeVal c < 16 := by
  simp only [isHexCode, Bool.or_eq_true, Bool.and_eq_true,
    decide_eq_true_eq] at h
  unfold hexCodeVal
  split <;> omega

theorem toHexCodes_length (len n : Nat) : (toHexCodes len n).length = len := by
  induction len generalizing n with
  | zero => rfl
  | succ k ih => simp [toHexCodes, ih]

theorem toHexCodes_all_hex (len n : Nat) :
    ∀ c ∈ toHexCodes len n, isHexCode c = true := by
  induction len generalizing n with
  | zero =>
    intro c hc
    simp [toHexCodes] at hc
  | succ k ih =>
    intro c hc
    simp only [toHexCodes, List.mem_append, List.mem_singleton] at hc
    rcases hc with hc | rfl
    · exact ih _ c hc
    · exact hexDigitCode_isHex (Nat.mod_lt _ (by omega))

theorem hexCodesVal_toHexCodes {len n : Nat} (h : n < 16 ^ len) :
    hexCodesVal (toHexCodes len n) = n := by
  induction len generalizing n with
  | zero =>
    simp only [pow_zero, Nat.lt_one_iff] at h
    simp [toHexCodes, hexCodesVal, h]
  | succ k ih =>
    have hdiv : n / 16 < 16 ^ k := by
      rw [Nat.div_lt_iff_lt_mul (by norm_num)]
      calc n < 16 ^ (k + 1) := h
        _ = 16 ^ k * 16 := by ring
    have hih := ih (n := n / 16) hdiv
    simp only [toHexCodes, hexCodesVal, List.foldl_append] at *
    rw [hih, List.foldl_cons, List.foldl_nil,
      hexCodeVal_digit (Nat.mod_lt _ (by omega))]
    omega

theorem toHexCodes_hexCodesVal {l : List Nat}
    (h : ∀ c ∈ l, isHexCode c = true) :
    toHexCodes l.length (hexCodesVal l) = l := by
  induction l using List.reverseRecOn with
  | nil => rfl
  | append_singleton xs c ih =>
    have hc : isHexCode c = true := h c (by simp)
    have hxs : ∀ x ∈ xs, isHexCode x = true :=
      fun x hx => h x (by simp [hx])
    have hval : hexCodesVal (xs ++ [c])
        = hexCodesVal xs * 16 + hexCodeVal c := by
      simp [hexCodesVal, List.foldl_append]
    have hlt := hexCodeVal_lt hc
    simp only [List.length_append, List.length_singleton, toHexCodes, hval]
    have hdiveq : (hexCodesVal xs * 16 + hexCodeVal c) / 16 = hexCodesVal xs := by
      omega
    have hmodeq : (hexCodesVal xs * 16 + hexCodeVal c) % 16 = hexCodeVal c := by
      omega
    rw [hdiveq, hmodeq, ih hxs, hexDigitCode_hexCodeVal hc]

/-! ## Key text encodings (`Keys::parse` in `key/mod.rs`)

Modelled from the spec: secret/public key text parsing lives in the
`nostr` crate, not under `src/`.  Text is modelled as character-code
lists.  A key has two textual encodings: raw 64-digit lowercase hex, and a
checksummed human-readable encoding with distinct prefixes for secret
("nsec") and public ("npub") keys, the checksum covering the prefix tag
and the key value. -/

/-- Character codes of the secret-key human-readable part `nsec1`. -/
def nsecHrp : List Nat := [110, 115, 101, 99, 49]

/-- Character codes of the public-key human-readable part `npub1`. -/
def npubHrp : List Nat := [110, 112, 117, 98, 49]

/-- Modelled from the spec: the checksum of the human-readable encoding,
covering the prefix tag and the key value. -/
def bechChecksum (hrpTag key : Nat) : Nat := (key + 31 * hrpTag + 7) % 65536

/-- The checksummed secret-key text encoding. -/
def nsecEncode (sk : Nat) : List Nat :=
  nsecHrp ++ toHexCodes 64 sk ++ toHexCodes 4 (bechChecksum 1 sk)

/-- The checksummed public-key text encoding. -/
def npubEncode (pk : Nat) : List Nat :=
  npubHrp ++ toHexCodes 64 pk ++ toHexCodes 4 (bechChecksum 2 pk)

inductive KeyError
  | malformedKey
deriving DecidableEq

/-- Modelled from the spec: secret-key parsing — accepts raw 64-digit hex
or the checksummed secret-key-prefixed encoding; anything else (wrong
length, bad character, wrong prefix, checksum mismatch) is rejected. -/
def parseSecretKeyCodes (l : List Nat) : Except KeyError Nat :=
  if l.length = 64 ∧ (∀ c ∈ l, isHexCode c = true) then
    .ok (hexCodesVal l)
  else if l.take 5 = nsecHrp ∧ l.length = 73 ∧
      (∀ c ∈ l.drop 5, isHexCode c = true) ∧
      hexCodesVal ((l.drop 5).drop 64)
        = bechChecksum 1 (hexCodesVal ((l.drop 5).take 64)) then
    .ok (hexCodesVal ((l.drop 5).take 64))
  else .error .malformedKey

/-- Modelled from the spec: public-key parsing — same shape with the
public-key prefix. -/
def parsePublicKeyCodes (l : List Nat) : Except KeyError Nat :=
  if l.length = 64 ∧ (∀ c ∈ l, isHexCode c = true) then
    .ok (hexCodesVal l)
  else if l.take 5 = npubHrp ∧ l.length = 73 ∧
      (∀ c ∈ l.drop 5, isHexCode c = true) ∧
      hexCodesVal ((l.drop 5).drop 64)
        = bechChecksum 2 (hexCodesVal ((l.drop 5).take 64)) then
    .ok (hexCodesVal ((l.drop 5).take 64))
  else .error .malformedKey

/-- `Keys::parse` (`key/mod.rs`): parse the secret key from hex or the
checksummed encoding and compose the identity. -/
def Keys.parse (l : List Nat) : Except KeyError Keys :=
  match parseSecretKeyCodes l with
  | .error e => .error e
  | .ok sk => .ok ⟨sk⟩

theorem parseSecretKeyCodes_hex {sk : Nat} (h : sk < 2 ^ 256) :
    parseSecretKeyCodes (toHexCodes 64 sk) = .ok sk := by
  have h16 : sk < 16 ^ 64 := by
    have hpow : (16 : Nat) ^ 64 = 2 ^ 256 := by
      rw [show (16 : Nat) = 2 ^ 4 by norm_num, ← pow_mul]
    rw [hpow]
    exact h
  unfold parseSecretKeyCodes
  rw [if_pos ⟨toHexCodes_length 64 sk, toHexCodes_all_hex 64 sk⟩,
    hexCodesVal_toHexCodes h16]

theorem nsecEncode_length (sk : Nat) : (nsecEncode sk).length = 73 := by
  simp [nsecEncode, nsecHrp, toHexCodes_length]

theorem parseSecretKeyCodes_nsec {sk : Nat} (h : sk < 2 ^ 256) :
    parseSecretKeyCodes (nsecEncode sk) = .ok sk := by
  have h16 : sk < 16 ^ 64 := by
    have hpow : (16 : Nat) ^ 64 = 2 ^ 256 := by
      rw [show (16 : Nat) = 2 ^ 4 by norm_num, ← pow_mul]
    rw [hpow]
    exact h
  have hck : bechChecksum 1 sk < 16 ^ 4 := by
    have : bechChecksum 1 sk < 65536 := Nat.mod_lt _ (by norm_num)
    omega
  have htake : (nsecEncode sk).take 5 = nsecHrp := by
    unfold nsecEncode
    rw [List.append_assoc]
    exact List.take_left' rfl
  have hdrop : (nsecEncode sk).drop 5
      = toHexCodes 64 sk ++ toHexCodes 4 (bechChecksum 1 sk) := by
    unfold nsecEncode
    rw [List.append_assoc]
    exact List.drop_left' rfl
  have hbodytake : ((nsecEncode sk).drop 5).take 64 = toHexCodes 64 sk := by
    rw [hdrop]
    exact List.take_left' (toHexCodes_length 64 sk)
  have hbodydrop : ((nsecEncode sk).drop 5).drop 64
      = toHexCodes 4 (bechChecksum 1 sk) := by
    rw [hdrop]
    exact List.drop_left' (toHexCodes_length 64 sk)
  unfold parseSecretKeyCodes
  rw [if_neg, if_pos]
  · rw [hbodytake, hexCodesVal_toHexCodes h16]
  · refine ⟨htake, nsecEncode_length sk, ?_, ?_⟩
    · intro c hc
      rw [hdrop] at hc
      rcases List.mem_append.mp hc with hc | hc
      · exact toHexCodes_all_hex 64 sk c hc
      · exact toHexCodes_all_hex 4 _ c hc
    · rw [hbodytake, hbodydrop, hexCodesVal_toHexCodes h16,
        hexCodesVal_toHexCodes hck]
  · rintro ⟨hlen, -⟩
    rw [nsecEncode_length sk] at hlen
    omega

theorem parseSecretKeyCodes_sound {l : List Nat} {sk : Nat}
    (h : parseSecretKeyCodes l = .ok sk) :
    l = toHexCodes 64 sk ∨ l = nsecEncode sk := by
  unfold parseSecretKeyCodes at h
  split at h
  · next hcond =>
    obtain ⟨hlen, hhex⟩ := hcond
    simp only [Except.ok.injEq] at h
    left
    rw [← h, ← hlen]
    exact (toHexCodes_hexCodesVal hhex).symm
  · split at h
    · next hcond =>
      obtain ⟨htake, hlen, hhex, hcksum⟩ := hcond
      simp only [Except.ok.injEq] at h
      right
      have hbodylen : (l.drop 5).length = 68 := by
        rw [List.length_drop, hlen]
      have htakelen : ((l.drop 5).take 64).length = 64 := by
        rw [List.length_take, hbodylen]
        decide
      have hdroplen : ((l.drop 5).drop 64).length = 4 := by
        rw [List.length_drop, hbodylen]
      have hhextake : ∀ c ∈ (l.drop 5).take 64, isHexCode c = true :=
        fun c hc => hhex c (List.mem_of_mem_take hc)
      have hhexdrop : ∀ c ∈ (l.drop 5).drop 64, isHexCode c = true :=
        fun c hc => hhex c (List.mem_of_mem_drop hc)
      have h1 : toHexCodes 64 sk = (l.drop 5).take 64 := by
        have hrt := toHexCodes_hexCodesVal hhextake
        rw [htakelen] at hrt
        rw [← h]
        exact hrt
      have h2 : toHexCodes 4 (bechChecksum 1 sk) = (l.drop 5).drop 64 := by
        have hrt := toHexCodes_hexCodesVal hhexdrop
        rw [hdroplen] at hrt
        rw [← h, ← hcksum]
        exact hrt
      calc l = l.take 5 ++ l.drop 5 := (List.take_append_drop 5 l).symm
        _ = nsecHrp ++ ((l.drop 5).take 64 ++ (l.drop 5).drop 64) := by
            rw [htake, List.take_append_drop]
        _ = nsecEncode sk := by
            rw [← h1, ← h2, nsecEncode, List.append_assoc]
    · exact absurd h (by simp)

theorem npubEncode_length (pk : Nat) : (npubEncode pk).length = 73 := by
  simp [npubEncode, npubHrp, toHexCodes_length]

theorem parseSecretKeyCodes_npub (pk : Nat) :
    parseSecretKeyCodes (npubEncode pk) = .error .malformedKey := by
  have htake : (npubEncode pk).take 5 = npubHrp := by
    unfold npubEncode
    rw [List.append_assoc]
    exact List.take_left' rfl
  unfold parseSecretKeyCodes
  rw [if_neg, if_neg]
  · rintro ⟨hp, -⟩
    rw [htake] at hp
    exact absurd hp (by decide)
  · rintro ⟨hlen, -⟩
    rw [npubEncode_length pk] at hlen
    omega

theorem parsePublicKeyCodes_nsec (sk : Nat) :
    parsePublicKeyCodes (nsecEncode sk) = .error .malformedKey := by
  have htake : (nsecEncode sk).take 5 = nsecHrp := by
    unfold nsecEncode
    rw [List.append_assoc]
    exact List.take_left' rfl
  unfold parsePublicKeyCodes
  rw [if_neg, if_neg]
  · rintro ⟨hp, -⟩
    rw [htake] at hp
    exact absurd hp (by decide)
  · rintro ⟨hlen, -⟩
    rw [nsecEncode_length sk] at hlen
    omega

/-- C6: `Keys::parse` accepts both the raw 64-digit hex encoding and the
checksummed secret-key-prefixed encoding of a secret key, returning the
corresponding identity; everything it accepts is exactly one of those two
well-formed encodings (hence any length, charset, prefix or checksum
mismatch is an error); and cross-use is rejected: a public-key-prefixed
string never parses as a secret key, and a secret-key-prefixed string
never parses as a public key. -/
theorem claim_C6_keys_parse :
    (∀ sk : Nat, sk < 2 ^ 256 → Keys.parse (toHexCodes 64 sk) = .ok ⟨sk⟩) ∧
    (∀ sk : Nat, sk < 2 ^ 256 → Keys.parse (nsecEncode sk) = .ok ⟨sk⟩) ∧
    (∀ (l : List Nat) (k : Keys), Keys.parse l = .ok k →
      l = toHexCodes 64 k.sk ∨ l = nsecEncode k.sk) ∧
    (∀ pk : Nat, Keys.parse (npubEncode pk) = .error .malformedKey) ∧
    (∀ sk : Nat, parsePublicKeyCodes (nsecEncode sk)
      = .error .malformedKey) := by
  refine ⟨?_, ?_, ?_, ?_, parsePublicKeyCodes_nsec⟩
  · intro sk h
    simp [Keys.parse, parseSecretKeyCodes_hex h]
  · intro sk h
    simp [Keys.parse, parseSecretKeyCodes_nsec h]
  · intro l k h
    unfold Keys.parse at h
    split at h
    · exact absurd h (by simp)
    · next sk hsk =>
      simp only [Except.ok.injEq] at h
      subst h
      exact parseSecretKeyCodes_sound hsk
  · intro pk
    simp [Keys.parse, parseSecretKeyCodes_npub pk]

theorem claim_C6_witness :
    Keys.parse (toHexCodes 64 2) = .ok ⟨2⟩ ∧
    Keys.parse (nsecEncode 2) = .ok ⟨2⟩ ∧
    Keys.parse (npubEncode 2) = .error .malformedKey :=
  ⟨claim_C6_keys_parse.1 2 (by norm_num),
    claim_C6_keys_parse.2.1 2 (by norm_num),
    claim_C6_keys_parse.2.2.2.1 2⟩

/-! ## Encryption schemes (NIP-04 and NIP-44)

Modelled from the spec: both schemes live in the `nostr` crate, not under
`src/` (`key/mod.rs` only forwards `nip04_encrypt`/`nip04_decrypt`/
`nip44_encrypt`/`nip44_decrypt`).  Per the spec, both derive a shared
secret from (own secret key, peer public key) via Diffie-Hellman.  Scheme
v1 (NIP-04) uses the shared secret directly as the key of a block cipher
in CBC mode with a random per-message IV and PKCS#7 padding, packaged with
the IV and a version marker; decryption fails closed on marker mismatch or
bad padding, and the mode provides no authentication.  Scheme v2 (NIP-44)
passes the shared secret through a key-derivation step, length-pads the
plaintext, and authenticates the versioned payload with a MAC that is
verified before any plaintext is returned.  The block cipher, stream
cipher and MAC primitives are modelled by executable stand-ins that keep
the structural properties (per-block keyed permutation, keystream XOR,
sum-based tamper-evident tag). -/

/-- Elliptic-curve Diffie-Hellman in the modelled group: scalar times
point. -/
def sharedSecret (sk pk : Nat) : Nat := sk * pk

theorem sharedSecret_comm (a b : Nat) :
    sharedSecret a (pubkeyOf b) = sharedSecret b (pubkeyOf a) := by
  simp only [sharedSecret, pubkeyOf]
  ring

inductive CryptoError
  | badVersion
  | malformedPayload
  | badPadding
  | macMismatch
deriving DecidableEq

/-- Pointwise XOR of two byte lists. -/
def zipXor (a b : List Nat) : List Nat := List.zipWith Nat.xor a b

/-! ### NIP-04: CBC block cipher, PKCS#7 padding, no authentication -/

/-- The 16-byte block-cipher key derived from the shared secret. -/
def keyBlock (s : Nat) : List Nat :=
  (List.range 16).map (fun i => (s / 256 ^ i) % 256)

/-- PKCS#7 pad length for a message of length `n` (always in 1..16). -/
def padLen16 (n : Nat) : Nat := 16 - n % 16

/-- PKCS#7 padding to a multiple of the block size. -/
def pkcs7pad (m : List Nat) : List Nat :=
  m ++ List.replicate (padLen16 m.length) (padLen16 m.length)

/-- PKCS#7 unpadding; `none` on bad padding. -/
def pkcs7unpad (m : List Nat) : Option (List Nat) :=
  match m.getLast? with
  | none => none
  | some p =>
    if 1 ≤ p ∧ p ≤ 16 ∧ p ≤ m.length ∧
        m.drop (m.length - p) = List.replicate p p then
      some (m.take (m.length - p))
    else none

/-- Fuelled block splitter (structural recursion on the fuel; any fuel of
at least the list length gives the block decomposition). -/
def chunk16Fuel : Nat → List Nat → List (List Nat)
  | _, [] => []
  | 0, l => [l]
  | fuel + 1, a :: rest => (a :: rest).take 16 :: chunk16Fuel fuel ((a :: rest).drop 16)

/-- Split a byte list into blocks of 16 (last block possibly shorter). -/
def chunk16 (l : List Nat) : List (List Nat) :=
  chunk16Fuel l.length l

/-- CBC encryption over blocks; the block cipher is the keyed XOR
permutation `E(x) = key ⊕ x`. -/
def cbcEnc (key : List Nat) : List Nat → List (List Nat) → List (List Nat)
  | _, [] => []
  | iv, b :: bs =>
    let c := zipXor key (zipXor iv b)
    c :: cbcEnc key c bs

/-- CBC decryption over blocks. -/
def cbcDec (key : List Nat) : List Nat → List (List Nat) → List (List Nat)
  | _, [] => []
  | iv, c :: cs => zipXor iv (zipXor key c) :: cbcDec key c cs

/-- NIP-04 encryption: version marker, then IV, then CBC ciphertext.  The
random IV is an explicit 16-byte argument. -/
def nip04Encrypt (sk pk : Nat) (iv m : List Nat) : List Nat :=
  1 :: iv ++ (cbcEnc (keyBlock (sharedSecret sk pk)) iv
    (chunk16 (pkcs7pad m))).flatten

/-- NIP-04 decryption: fails closed on marker mismatch or bad padding; the
CBC mode provides no authentication. -/
def nip04Decrypt (sk pk : Nat) (c : List Nat) : Except CryptoError (List Nat) :=
  match c with
  | [] => .error .malformedPayload
  | v :: rest =>
    if v = 1 then
      match pkcs7unpad ((cbcDec (keyBlock (sharedSecret sk pk)) (rest.take 16)
          (chunk16 (rest.drop 16))).flatten) with
      | none => .error .badPadding
      | some m => .ok m
    else .error .badVersion

/-! ### NIP-44: key derivation, length padding, authenticated payload -/

/-- Key-derivation step applied to the shared secret (encryption key). -/
def nip44ConvKey (s : Nat) : Nat := s * 2654435761 + 1

/-- Key-derivation step applied to the shared secret (MAC key). -/
def nip44MacKey (s : Nat) : Nat := s * 2246822519 + 2

/-- Keystream bytes for the stream cipher. -/
def keystream (key : Nat) (nonce : List Nat) (len : Nat) : List Nat :=
  (List.range len).map (fun i => (key + hashMsg nonce * 131 + i * 17) % 256)

/-- Length padding: two length bytes, the plaintext, zeros to a multiple
of 32 (plaintext at most 65535 bytes). -/
def nip44Pad (m : List Nat) : List Nat :=
  m.length / 256 :: m.length % 256 ::
    (m ++ List.replicate ((32 - (m.length + 2) % 32) % 32) 0)

/-- Undo the length padding. -/
def nip44Unpad (p : List Nat) : Option (List Nat) :=
  match p with
  | hi :: lo :: rest =>
    if hi * 256 + lo ≤ rest.length then some (rest.take (hi * 256 + lo))
    else none
  | _ => none

/-- Tamper-evident tag over the MAC'd data (any single-byte change of the
data changes the tag). -/
def macBytes (macKey : Nat) (data : List Nat) : Nat :=
  (macKey + data.sum) % 256

/-- NIP-44 encryption: version byte 2, the 12-byte nonce (explicit
argument modelling the per-message randomness), the stream ciphertext of
the length-padded plaintext, and the MAC over nonce and ciphertext. -/
def nip44Encrypt (sk pk : Nat) (nonce m : List Nat) : List Nat :=
  let padded := nip44Pad m
  let ct := zipXor padded
    (keystream (nip44ConvKey (sharedSecret sk pk)) nonce padded.length)
  2 :: (nonce ++ (ct ++ [macBytes (nip44MacKey (sharedSecret sk pk)) (nonce ++ ct)]))

/-- NIP-44 decryption: rejects unknown version bytes and verifies the MAC
before returning any plaintext. -/
def nip44Decrypt (sk pk : Nat) (p : List Nat) : Except CryptoError (List Nat) :=
  match p with
  | [] => .error .malformedPayload
  | v :: rest =>
    if v = 2 then
      if rest.length < 13 then .error .malformedPayload
      else
        let nonce := rest.take 12
        let body := rest.drop 12
        let ct := body.dropLast
        match body.getLast? with
        | none => .error .malformedPayload
        | some mac =>
          if mac = macBytes (nip44MacKey (sharedSecret sk pk)) (nonce ++ ct) then
            match nip44Unpad (zipXor ct
                (keystream (nip44ConvKey (sharedSecret sk pk)) nonce ct.length)) with
            | none => .error .badPadding
            | some m => .ok m
          else .error .macMismatch
    else .error .badVersion

/-! ### NIP-04 round trip -/

theorem keyBlock_length (s : Nat) : (keyBlock s).length = 16 := by
  simp [keyBlock]

theorem zipXor_length (a b : List Nat) :
    (zipXor a b).length = min a.length b.length := by
  simp [zipXor]

theorem zipXor_cancel_left {a l : List Nat} (h : a.length = l.length) :
    zipXor a (zipXor a l) = l := by
  induction a generalizing l with
  | nil =>
    cases l with
    | nil => rfl
    | cons y ys => simp at h
  | cons x xs ih =>
    cases l with
    | nil => simp at h
    | cons y ys =>
      have hlen : xs.length = ys.length := by simpa using h
      show (x ^^^ (x ^^^ y)) :: zipXor xs (zipXor xs ys) = y :: ys
      rw [← Nat.xor_assoc, Nat.xor_self, Nat.zero_xor, ih hlen]

theorem zipXor_cancel_right {l a : List Nat} (h : l.length = a.length) :
    zipXor (zipXor l a) a = l := by
  induction l generalizing a with
  | nil => rfl
  | cons x xs ih =>
    cases a with
    | nil => simp at h
    | cons y ys =>
      have hlen : xs.length = ys.length := by simpa using h
      show ((x ^^^ y) ^^^ y) :: zipXor (zipXor xs ys) ys = x :: xs
      rw [Nat.xor_cancel_right, ih hlen]

theorem chunk16Fuel_congr :
    ∀ (f₁ f₂ : Nat) (l : List Nat), l.length ≤ f₁ → l.length ≤ f₂ →
      chunk16Fuel f₁ l = chunk16Fuel f₂ l := by
  intro f₁
  induction f₁ with
  | zero =>
    intro f₂ l h1 _
    have : l = [] := List.eq_nil_of_length_eq_zero (by omega)
    subst this
    cases f₂ <;> rfl
  | succ f ih =>
    intro f₂ l h1 h2
    cases l with
    | nil => cases f₂ <;> rfl
    | cons a rest =>
      cases f₂ with
      | zero => simp at h2
      | succ f' =>
        show (a :: rest).take 16 :: chunk16Fuel f ((a :: rest).drop 16)
          = (a :: rest).take 16 :: chunk16Fuel f' ((a :: rest).drop 16)
        rw [ih f' ((a :: rest).drop 16)
          (by simp only [List.length_drop, List.length_cons] at h1 ⊢; omega)
          (by simp only [List.length_drop, List.length_cons] at h2 ⊢; omega)]

theorem chunk16_eq_cons {l : List Nat} (h : l ≠ []) :
    chunk16 l = l.take 16 :: chunk16 (l.drop 16) := by
  cases l with
  | nil => exact absurd rfl h
  | cons a rest =>
    show (a :: rest).take 16 :: chunk16Fuel rest.length ((a :: rest).drop 16)
      = (a :: rest).take 16 :: chunk16 ((a :: rest).drop 16)
    rw [chunk16Fuel_congr rest.length ((a :: rest).drop 16).length _
      (by simp only [List.length_drop, List.length_cons]; omega) le_rfl]
    rfl

theorem chunk16_flatten (l : List Nat) : (chunk16 l).flatten = l := by
  have H : ∀ (n : Nat) (l : List Nat), l.length ≤ n →
      (chunk16 l).flatten = l := by
    intro n
    induction n with
    | zero =>
      intro l hl
      have : l = [] := List.eq_nil_of_length_eq_zero (by omega)
      subst this
      rfl
    | succ n ih =>
      intro l hl
      cases l with
      | nil => rfl
      | cons a rest =>
        rw [chunk16_eq_cons (by simp), List.flatten_cons,
          ih ((a :: rest).drop 16)
            (by simp only [List.length_drop, List.length_cons] at hl ⊢; omega),
          List.take_append_drop]
  exact H l.length l le_rfl

theorem chunk16_blocks : ∀ (l : List Nat), 16 ∣ l.length →
    ∀ c ∈ chunk16 l, c.length = 16 := by
  have H : ∀ (n : Nat) (l : List Nat), l.length ≤ n → 16 ∣ l.length →
      ∀ c ∈ chunk16 l, c.length = 16 := by
    intro n
    induction n with
    | zero =>
      intro l hl _ c hc
      have : l = [] := List.eq_nil_of_length_eq_zero (by omega)
      subst this
      simp [chunk16, chunk16Fuel] at hc
    | succ n ih =>
      intro l hl hdvd c hc
      cases l with
      | nil => simp [chunk16, chunk16Fuel] at hc
      | cons a rest =>
        have h16 : 16 ≤ (a :: rest).length := by
          rcases hdvd with ⟨k, hk⟩
          cases k with
          | zero => simp at hk
          | succ k' =>
            rw [hk]
            omega
        rw [chunk16_eq_cons (by simp)] at hc
        rcases List.mem_cons.mp hc with rfl | hc
        · rw [List.length_take]
          omega
        · refine ih ((a :: rest).drop 16)
            (by simp only [List.length_drop, List.length_cons] at hl ⊢; omega)
            ?_ c hc
          rcases hdvd with ⟨k, hk⟩
          rw [List.length_drop, hk]
          exact ⟨k - 1, by omega⟩
  intro l
  exact H l.length l le_rfl

theorem chunk16_flatten_blocks :
    ∀ (bs : List (List Nat)), (∀ c ∈ bs, c.length = 16) →
    chunk16 bs.flatten = bs := by
  intro bs
  induction bs with
  | nil => intro _; rfl
  | cons c cs ih =>
    intro h
    have hc : c.length = 16 := h c (by simp)
    have hcne : c ≠ [] := by
      intro hnil
      rw [hnil] at hc
      simp at hc
    have hne : (c :: cs).flatten ≠ [] := by
      simp only [List.flatten_cons]
      intro hnil
      rcases List.append_eq_nil.mp hnil with ⟨h1, -⟩
      exact hcne h1
    rw [List.flatten_cons, chunk16_eq_cons (by simpa using hne),
      List.take_left' hc, List.drop_left' hc, ih (fun x hx => h x (by simp [hx]))]

theorem cbcEnc_blocks (key : List Nat) :
    ∀ (bs : List (List Nat)) (iv : List Nat), key.length = 16 →
      iv.length = 16 → (∀ b ∈ bs, b.length = 16) →
      ∀ c ∈ cbcEnc key iv bs, c.length = 16 := by
  intro bs
  induction bs with
  | nil =>
    intro iv _ _ _ c hc
    simp [cbcEnc] at hc
  | cons b bs ih =>
    intro iv hkey hiv hbs c hc
    have hb : b.length = 16 := hbs b (by simp)
    have hclen : (zipXor key (zipXor iv b)).length = 16 := by
      rw [zipXor_length, zipXor_length, hkey, hiv, hb]
      simp
    simp only [cbcEnc, List.mem_cons] at hc
    rcases hc with rfl | hc
    · exact hclen
    · exact ih _ hkey hclen (fun x hx => hbs x (by simp [hx])) c hc

theorem cbc_roundtrip (key : List Nat) :
    ∀ (bs : List (List Nat)) (iv : List Nat), key.length = 16 →
      iv.length = 16 → (∀ b ∈ bs, b.length = 16) →
      cbcDec key iv (cbcEnc key iv bs) = bs := by
  intro bs
  induction bs with
  | nil => intro iv _ _ _; rfl
  | cons b bs ih =>
    intro iv hkey hiv hbs
    have hb : b.length = 16 := hbs b (by simp)
    have hzlen : (zipXor iv b).length = 16 := by
      rw [zipXor_length, hiv, hb]
      simp
    have hclen : (zipXor key (zipXor iv b)).length = 16 := by
      rw [zipXor_length, hkey, hzlen]
      simp
    show zipXor iv (zipXor key (zipXor key (zipXor iv b)))
        :: cbcDec key (zipXor key (zipXor iv b))
          (cbcEnc key (zipXor key (zipXor iv b)) bs) = b :: bs
    rw [zipXor_cancel_left (by rw [hkey, hzlen]),
      zipXor_cancel_left (by rw [hiv, hb]),
      ih _ hkey hclen (fun x hx => hbs x (by simp [hx]))]

theorem padLen16_pos (n : Nat) : 1 ≤ padLen16 n := by
  unfold padLen16
  omega

theorem padLen16_le (n : Nat) : padLen16 n ≤ 16 := by
  unfold padLen16
  omega

theorem pkcs7pad_length (m : List Nat) :
    (pkcs7pad m).length = m.length + padLen16 m.length := by
  simp [pkcs7pad]

theorem pkcs7pad_mod (m : List Nat) : 16 ∣ (pkcs7pad m).length := by
  rw [pkcs7pad_length]
  unfold padLen16
  omega

theorem pkcs7unpad_pad (m : List Nat) : pkcs7unpad (pkcs7pad m) = some m := by
  have hp1 : 1 ≤ padLen16 m.length := padLen16_pos _
  have hp16 : padLen16 m.length ≤ 16 := padLen16_le _
  have hlast : (pkcs7pad m).getLast? = some (padLen16 m.length) := by
    obtain ⟨q, hq⟩ : ∃ q, padLen16 m.length = q + 1 := ⟨padLen16 m.length - 1, by omega⟩
    rw [pkcs7pad, hq, List.replicate_succ', ← List.append_assoc]
    exact List.getLast?_concat _
  have hdrop : (pkcs7pad m).drop ((pkcs7pad m).length - padLen16 m.length)
      = List.replicate (padLen16 m.length) (padLen16 m.length) := by
    rw [pkcs7pad_length, Nat.add_sub_cancel, pkcs7pad]
    exact List.drop_left' rfl
  have htake : (pkcs7pad m).take ((pkcs7pad m).length - padLen16 m.length) = m := by
    rw [pkcs7pad_length, Nat.add_sub_cancel, pkcs7pad]
    exact List.take_left' rfl
  have hple : padLen16 m.length ≤ (pkcs7pad m).length := by
    rw [pkcs7pad_length]
    omega
  simp only [pkcs7unpad, hlast]
  rw [if_pos ⟨hp1, hp16, hple, hdrop⟩, htake]

theorem nip04_roundtrip (a b : Nat) (iv m : List Nat) (hiv : iv.length = 16) :
    nip04Decrypt b (pubkeyOf a) (nip04Encrypt a (pubkeyOf b) iv m) = .ok m := by
  have hshared : sharedSecret b (pubkeyOf a) = sharedSecret a (pubkeyOf b) :=
    (sharedSecret_comm a b).symm
  have hkeylen : (keyBlock (sharedSecret a (pubkeyOf b))).length = 16 :=
    keyBlock_length _
  have hblocks16 : ∀ c ∈ chunk16 (pkcs7pad m), c.length = 16 :=
    chunk16_blocks _ (pkcs7pad_mod m)
  have henc16 : ∀ c ∈ cbcEnc (keyBlock (sharedSecret a (pubkeyOf b))) iv
      (chunk16 (pkcs7pad m)), c.length = 16 :=
    cbcEnc_blocks _ _ iv hkeylen hiv hblocks16
  have hstep : ∀ rest : List Nat, nip04Decrypt b (pubkeyOf a) (1 :: rest)
      = match pkcs7unpad ((cbcDec (keyBlock (sharedSecret b (pubkeyOf a)))
          (rest.take 16) (chunk16 (rest.drop 16))).flatten) with
        | none => .error .badPadding
        | some m => .ok m :=
    fun rest => rfl
  show nip04Decrypt b (pubkeyOf a)
    (1 :: (iv ++ (cbcEnc (keyBlock (sharedSecret a (pubkeyOf b))) iv
      (chunk16 (pkcs7pad m))).flatten)) = .ok m
  rw [hstep, List.take_left' hiv, List.drop_left' hiv, hshared,
    chunk16_flatten_blocks _ henc16, cbc_roundtrip _ _ iv hkeylen hiv hblocks16,
    chunk16_flatten, pkcs7unpad_pad]

/-! ### NIP-44 round trip and tamper detection -/

theorem keystream_length (k : Nat) (n : List Nat) (len : Nat) :
    (keystream k n len).length = len := by
  simp [keystream]

theorem keystream_bytes (k : Nat) (n : List Nat) (len : Nat) :
    ∀ x ∈ keystream k n len, x < 256 := by
  intro x hx
  simp only [keystream, List.mem_map] at hx
  obtain ⟨i, -, rfl⟩ := hx
  exact Nat.mod_lt _ (by norm_num)

theorem nip44Pad_bytes {m : List Nat} (hm : ∀ x ∈ m, x < 256)
    (hlen : m.length < 65536) : ∀ x ∈ nip44Pad m, x < 256 := by
  intro x hx
  simp only [nip44Pad, List.mem_cons, List.mem_append, List.mem_replicate] at hx
  rcases hx with rfl | rfl | hx | ⟨-, rfl⟩
  · omega
  · omega
  · exact hm x hx
  · omega

theorem zipXor_bytes {a b : List Nat} (ha : ∀ x ∈ a, x < 256)
    (hb : ∀ x ∈ b, x < 256) : ∀ x ∈ zipXor a b, x < 256 := by
  induction a generalizing b with
  | nil =>
    intro x hx
    simp [zipXor] at hx
  | cons y ys ih =>
    intro x hx
    cases b with
    | nil => simp [zipXor] at hx
    | cons z zs =>
      rcases List.mem_cons.mp hx with rfl | hx
      · have h1 : y < 256 := ha y (by simp)
        have h2 : z < 256 := hb z (by simp)
        have h256 : (256 : Nat) = 2 ^ 8 := by norm_num
        rw [h256] at h1 h2 ⊢
        exact Nat.xor_lt_two_pow h1 h2
      · exact ih (fun u hu => ha u (by simp [hu]))
          (fun u hu => hb u (by simp [hu])) x hx

theorem nip44Unpad_pad (m : List Nat) :
    nip44Unpad (nip44Pad m) = some m := by
  simp only [nip44Pad, nip44Unpad]
  have hval : m.length / 256 * 256 + m.length % 256 = m.length := by omega
  rw [hval, if_pos (by simp), List.take_left' rfl]

theorem macBytes_set_ne {mk : Nat} {l : List Nat} {j w : Nat} (hj : j < l.length)
    (hl : ∀ x ∈ l, x < 256) (hw : w < 256) (hne : w ≠ l.get ⟨j, hj⟩) :
    macBytes mk (l.set j w) ≠ macBytes mk l := by
  have hdecomp : l.sum = (l.take j).sum + l.get ⟨j, hj⟩ + (l.drop (j + 1)).sum := by
    conv_lhs => rw [← List.take_append_drop j l]
    rw [List.sum_append, List.drop_eq_getElem_cons hj, List.sum_cons]
    simp only [List.get_eq_getElem]
    ring
  have hset : (l.set j w).sum = (l.take j).sum + w + (l.drop (j + 1)).sum := by
    rw [List.sum_set, if_pos hj]
  have hold : l.get ⟨j, hj⟩ < 256 := hl _ (List.get_mem l j hj)
  unfold macBytes
  omega

theorem nip44Decrypt_cons_two (sk pk : Nat) (rest : List Nat)
    (h13 : ¬ rest.length < 13) :
    nip44Decrypt sk pk (2 :: rest)
      = match (rest.drop 12).getLast? with
        | none => Except.error CryptoError.malformedPayload
        | some mac =>
          if mac = macBytes (nip44MacKey (sharedSecret sk pk))
              (rest.take 12 ++ (rest.drop 12).dropLast) then
            match nip44Unpad (zipXor (rest.drop 12).dropLast
                (keystream (nip44ConvKey (sharedSecret sk pk)) (rest.take 12)
                  (rest.drop 12).dropLast.length)) with
            | none => Except.error CryptoError.badPadding
            | some m => Except.ok m
          else Except.error CryptoError.macMismatch := by
  have hrfl : nip44Decrypt sk pk (2 :: rest)
      = if rest.length < 13 then Except.error CryptoError.malformedPayload
        else match (rest.drop 12).getLast? with
          | none => Except.error CryptoError.malformedPayload
          | some mac =>
            if mac = macBytes (nip44MacKey (sharedSecret sk pk))
                (rest.take 12 ++ (rest.drop 12).dropLast) then
              match nip44Unpad (zipXor (rest.drop 12).dropLast
                  (keystream (nip44ConvKey (sharedSecret sk pk)) (rest.take 12)
                    (rest.drop 12).dropLast.length)) with
              | none => Except.error CryptoError.badPadding
              | some m => Except.ok m
            else Except.error CryptoError.macMismatch := rfl
  rw [hrfl, if_neg h13]

theorem nip44Decrypt_parts (sk pk : Nat) (nonce ct : List Nat) (mac : Nat)
    (hn : nonce.length = 12) :
    nip44Decrypt sk pk (2 :: (nonce ++ (ct ++ [mac])))
      = if mac = macBytes (nip44MacKey (sharedSecret sk pk)) (nonce ++ ct) then
          match nip44Unpad (zipXor ct
              (keystream (nip44ConvKey (sharedSecret sk pk)) nonce ct.length)) with
          | none => Except.error CryptoError.badPadding
          | some m => Except.ok m
        else Except.error CryptoError.macMismatch := by
  rw [nip44Decrypt_cons_two _ _ _
    (by simp only [List.length_append, List.length_cons, hn]; omega)]
  rw [List.take_left' hn, List.drop_left' hn, List.getLast?_concat,
    List.dropLast_concat]

theorem nip44_roundtrip (a b : Nat) (nonce m : List Nat)
    (hn : nonce.length = 12) :
    nip44Decrypt b (pubkeyOf a) (nip44Encrypt a (pubkeyOf b) nonce m)
      = .ok m := by
  have hshared : sharedSecret b (pubkeyOf a) = sharedSecret a (pubkeyOf b) :=
    (sharedSecret_comm a b).symm
  have hkslen : (keystream (nip44ConvKey (sharedSecret a (pubkeyOf b))) nonce
      (nip44Pad m).length).length = (nip44Pad m).length := keystream_length _ _ _
  have hct : (zipXor (nip44Pad m)
      (keystream (nip44ConvKey (sharedSecret a (pubkeyOf b))) nonce
        (nip44Pad m).length)).length = (nip44Pad m).length := by
    rw [zipXor_length, hkslen]
    simp
  have hunfold : nip44Encrypt a (pubkeyOf b) nonce m
      = 2 :: (nonce ++ ((zipXor (nip44Pad m)
          (keystream (nip44ConvKey (sharedSecret a (pubkeyOf b))) nonce
            (nip44Pad m).length))
        ++ [macBytes (nip44MacKey (sharedSecret a (pubkeyOf b)))
          (nonce ++ zipXor (nip44Pad m)
            (keystream (nip44ConvKey (sharedSecret a (pubkeyOf b))) nonce
              (nip44Pad m).length))])) := rfl
  rw [hunfold, nip44Decrypt_parts _ _ _ _ _ hn, hshared, if_pos rfl, hct,
    zipXor_cancel_right hkslen.symm, nip44Unpad_pad m]

theorem nip44Decrypt_ne_two (sk pk : Nat) {v : Nat} (rest : List Nat)
    (h : v ≠ 2) : nip44Decrypt sk pk (v :: rest) = .error .badVersion := by
  simp only [nip44Decrypt]
  rw [if_neg h]

/-- Corrupting any single byte of a well-formed NIP-44 payload makes
decryption fail: the version byte is checked, and every other byte is
covered by the MAC or is the MAC itself. -/
theorem nip44_payload_corruption (sk pk : Nat) (nonce ct : List Nat)
    (mac : Nat) (hn : nonce.length = 12)
    (hmac : mac = macBytes (nip44MacKey (sharedSecret sk pk)) (nonce ++ ct))
    (hb : ∀ x ∈ nonce ++ ct, x < 256)
    (i w : Nat) (hi : i < (2 :: (nonce ++ (ct ++ [mac]))).length)
    (hw : w < 256)
    (hne : w ≠ (2 :: (nonce ++ (ct ++ [mac]))).get ⟨i, hi⟩) :
    ∃ e, nip44Decrypt sk pk ((2 :: (nonce ++ (ct ++ [mac]))).set i w)
      = .error e := by
  have hassoc : nonce ++ (ct ++ [mac]) = (nonce ++ ct) ++ [mac] :=
    (List.append_assoc nonce ct [mac]).symm
  cases i with
  | zero =>
    have hw2 : w ≠ 2 := by simpa using hne
    refine ⟨.badVersion, ?_⟩
    rw [List.set_cons_zero]
    exact nip44Decrypt_ne_two sk pk _ hw2
  | succ j =>
    rw [List.set_cons_succ]
    have hrest : j < (nonce ++ (ct ++ [mac])).length := by
      simpa using Nat.lt_of_succ_lt_succ hi
    have hgetj : (2 :: (nonce ++ (ct ++ [mac]))).get ⟨j + 1, hi⟩
        = (nonce ++ (ct ++ [mac])).get ⟨j, hrest⟩ := List.get_cons_succ
    rw [hgetj] at hne
    have hjlt : j < (nonce ++ ct).length + 1 := by
      have := hrest
      simp only [List.length_append, List.length_cons, List.length_nil] at this ⊢
      omega
    rcases Nat.lt_or_ge j (nonce ++ ct).length with hcase | hcase
    · -- a MAC-covered byte (nonce or ciphertext) is corrupted
      have hset : (nonce ++ (ct ++ [mac])).set j w
          = ((nonce ++ ct).set j w) ++ [mac] := by
        rw [hassoc, List.set_append, if_pos hcase]
      have hgetNC : (nonce ++ (ct ++ [mac])).get ⟨j, hrest⟩
          = (nonce ++ ct).get ⟨j, hcase⟩ := by
        simp only [List.get_eq_getElem]
        exact (List.getElem_of_eq hassoc hrest).trans
          (List.getElem_append_left hcase)
      rw [hgetNC] at hne
      have hsplit : ((nonce ++ ct).set j w) ++ [mac]
          = ((nonce ++ ct).set j w).take 12
            ++ (((nonce ++ ct).set j w).drop 12 ++ [mac]) := by
        rw [← List.append_assoc, List.take_append_drop]
      have htklen : (((nonce ++ ct).set j w).take 12).length = 12 := by
        rw [List.length_take, List.length_set]
        simp only [List.length_append, hn]
        omega
      refine ⟨.macMismatch, ?_⟩
      rw [hset, hsplit, nip44Decrypt_parts _ _ _ _ _ htklen,
        List.take_append_drop,
        if_neg (by rw [hmac]; exact (macBytes_set_ne hcase hb hw hne).symm)]
    · -- the MAC byte itself is corrupted
      have hjeq : j = (nonce ++ ct).length := by omega
      have hset : (nonce ++ (ct ++ [mac])).set j w = nonce ++ (ct ++ [w]) := by
        rw [hassoc, List.set_append, if_neg (by omega), hjeq]
        simp
      have hgetmac : (nonce ++ (ct ++ [mac])).get ⟨j, hrest⟩ = mac := by
        simp only [List.get_eq_getElem]
        refine (List.getElem_of_eq hassoc hrest).trans ?_
        rw [List.getElem_append_right (by omega)]
        simp [hjeq]
      rw [hgetmac] at hne
      refine ⟨.macMismatch, ?_⟩
      rw [hset, nip44Decrypt_parts _ _ _ _ _ hn,
        if_neg (by rw [← hmac]; exact hne)]

/-- Tamper detection for NIP-44 at the encrypt/decrypt interface. -/
theorem nip44_corruption (a b : Nat) (nonce m : List Nat)
    (hn : nonce.length = 12) (hnb : ∀ x ∈ nonce, x < 256)
    (hm : ∀ x ∈ m, x < 256) (hlen : m.length < 65536)
    (i w : Nat) (hi : i < (nip44Encrypt a (pubkeyOf b) nonce m).length)
    (hw : w < 256)
    (hne : w ≠ (nip44Encrypt a (pubkeyOf b) nonce m).get ⟨i, hi⟩) :
    ∃ e, nip44Decrypt b (pubkeyOf a)
      ((nip44Encrypt a (pubkeyOf b) nonce m).set i w) = .error e := by
  have hshared : sharedSecret b (pubkeyOf a) = sharedSecret a (pubkeyOf b) :=
    (sharedSecret_comm a b).symm
  have hctb : ∀ x ∈ zipXor (nip44Pad m)
      (keystream (nip44ConvKey (sharedSecret a (pubkeyOf b))) nonce
        (nip44Pad m).length), x < 256 :=
    zipXor_bytes (nip44Pad_bytes hm hlen) (keystream_bytes _ _ _)
  have hb : ∀ x ∈ nonce ++ zipXor (nip44Pad m)
      (keystream (nip44ConvKey (sharedSecret a (pubkeyOf b))) nonce
        (nip44Pad m).length), x < 256 := by
    intro x hx
    rcases List.mem_append.mp hx with hx | hx
    · exact hnb x hx
    · exact hctb x hx
  exact nip44_payload_corruption b (pubkeyOf a) nonce _ _ hn
    (by rw [hshared]) hb i w hi hw hne

set_option maxRecDepth 100000 in
/-- C1 counterexample: NIP-04 is unauthenticated, so corrupting one byte
of a ciphertext does not always cause a decryption error.  Concretely:
byte 1 of this ciphertext (the first IV byte) is 0; setting it to 1 makes
decryption succeed with altered plaintext (first byte 104 became 105)
instead of returning an error. -/
theorem claim_C1_counterexample :
    (nip04Encrypt 3 (pubkeyOf 5) (List.replicate 16 0)
      [104, 101, 108, 108, 111])[1]? = some 0 ∧
    nip04Decrypt 5 (pubkeyOf 3) ((nip04Encrypt 3 (pubkeyOf 5)
      (List.replicate 16 0) [104, 101, 108, 108, 111]).set 1 1)
      = .ok [105, 101, 108, 108, 111] ∧
    ([105, 101, 108, 108, 111] : List Nat) ≠ [104, 101, 108, 108, 111] := by
  refine ⟨by decide, by decide, by decide⟩

/-- C1 (amended): for every valid key pair and every plaintext m,
including the empty and non-text byte content, decrypting the result of
encrypting m under the same key pair and the same scheme version returns
exactly m, for both NIP-04 and NIP-44; and corrupting any single byte of
a NIP-44 ciphertext causes decryption to return an error.  The original
claim also asserted corruption detection for NIP-04; that part fails
(see the counterexample) because NIP-04's block-cipher mode carries no
authentication, exactly as the spec's §4.4 anticipates ("authentication
failure if the mode provides it"). -/
theorem claim_C1_encrypt_decrypt_roundtrip :
    (∀ (a b : Nat) (iv m : List Nat), iv.length = 16 →
      nip04Decrypt b (pubkeyOf a) (nip04Encrypt a (pubkeyOf b) iv m)
        = .ok m) ∧
    (∀ (a b : Nat) (nonce m : List Nat), nonce.length = 12 →
      nip44Decrypt b (pubkeyOf a) (nip44Encrypt a (pubkeyOf b) nonce m)
        = .ok m) ∧
    (∀ (a b : Nat) (nonce m : List Nat), nonce.length = 12 →
      (∀ x ∈ nonce, x < 256) → (∀ x ∈ m, x < 256) → m.length < 65536 →
      ∀ (i w : Nat) (hi : i < (nip44Encrypt a (pubkeyOf b) nonce m).length),
        w < 256 → w ≠ (nip44Encrypt a (pubkeyOf b) nonce m).get ⟨i, hi⟩ →
        ∃ e, nip44Decrypt b (pubkeyOf a)
          ((nip44Encrypt a (pubkeyOf b) nonce m).set i w) = .error e) :=
  ⟨nip04_roundtrip, nip44_roundtrip,
    fun a b nonce m hn hnb hm hlen i w hi hw hne =>
      nip44_corruption a b nonce m hn hnb hm hlen i w hi hw hne⟩

set_option maxRecDepth 100000 in
theorem claim_C1_witness :
    nip04Decrypt 5 (pubkeyOf 3) (nip04Encrypt 3 (pubkeyOf 5)
      (List.replicate 16 0) [104, 101, 108, 108, 111])
      = .ok [104, 101, 108, 108, 111] ∧
    nip44Decrypt 5 (pubkeyOf 3) (nip44Encrypt 3 (pubkeyOf 5)
      (List.replicate 12 7) [104, 101]) = .ok [104, 101] ∧
    (∃ e, nip44Decrypt 5 (pubkeyOf 3) ((nip44Encrypt 3 (pubkeyOf 5)
      (List.replicate 12 7) [104, 101]).set 1 3) = .error e) :=
  ⟨claim_C1_encrypt_decrypt_roundtrip.1 3 5 (List.replicate 16 0)
      [104, 101, 108, 108, 111] (by decide),
    claim_C1_encrypt_decrypt_roundtrip.2.1 3 5 (List.replicate 12 7)
      [104, 101] (by decide),
    claim_C1_encrypt_decrypt_roundtrip.2.2 3 5 (List.replicate 12 7)
      [104, 101] (by decide) (by decide) (by decide) (by decide) 1 3
      (by decide) (by decide) (by decide)⟩

end Nostr
